import Mathlib

/-!
Verification of the documentation-generation scripts of the node-api-dotnet
repository.  The scripts are shallowly embedded: the regex-based string
transformations are modelled as recursive functions over `List Char`, the
file-system and external-command effects are modelled by explicit environment
records, and the recursive navigation-tree builder is modelled as a recursive
function over a directory tree value.
-/

namespace NodeApiDocs

/-! ### Generic character-list utilities -/

/-- Split a character list at newline characters, mirroring how the `m`-flagged
regexes of the scripts operate line by line.  Always returns a non-empty list
of newline-free lines. -/
def splitLines : List Char → List (List Char)
  | [] => [[]]
  | x :: xs =>
    if x = '\n' then [] :: splitLines xs
    else
      match splitLines xs with
      | [] => [[x]]
      | l :: ls => (x :: l) :: ls

/-- Rejoin lines with newline characters; inverse of `splitLines`. -/
def joinLines : List (List Char) → List Char
  | [] => []
  | [a] => a
  | a :: b :: r => a ++ '\n' :: joinLines (b :: r)

/-- Split a character list at pipe characters.  The segments strictly between
two pipes are the "table cells" in the sense of the spec (text delimited by
pipes, not spanning across a pipe).  Note the segments may span line breaks,
exactly as the lookaround classes `[^|]*` of the source regexes do. -/
def splitOnPipe : List Char → List (List Char)
  | [] => [[]]
  | x :: xs =>
    if x = '|' then [] :: splitOnPipe xs
    else
      match splitOnPipe xs with
      | [] => [[x]]
      | l :: ls => (x :: l) :: ls

/-- Rejoin pipe-separated segments. -/
def joinPipes : List (List Char) → List Char
  | [] => []
  | [a] => a
  | a :: b :: r => a ++ '|' :: joinPipes (b :: r)

/-- Helper for `mapInner`: `cur` is known not to be the first segment; the
last segment is left unchanged. -/
def mapInnerAux (f : List Char → List Char) (cur : List Char) :
    List (List Char) → List (List Char)
  | [] => [cur]
  | nxt :: rest => f cur :: mapInnerAux f nxt rest

/-- Apply `f` to every segment except the first and the last one (the
segments that lie strictly between two delimiters). -/
def mapInner (f : List Char → List Char) : List (List Char) → List (List Char)
  | [] => []
  | [a] => [a]
  | a :: b :: rest => a :: mapInnerAux f b rest

/-! ### The Markdown post-processor (`processMarkdown` in the .NET docs script)

The source applies three global regex replacements of the shape
`/(?<=\|[^|]*)c(?=[^|]*\|)/g`.  The variable-length lookbehind succeeds at a
position exactly when some pipe occurs somewhere before it in the subject
string (take the last such pipe: the characters in between are then all
non-pipes), and the lookahead succeeds exactly when some pipe occurs after the
position.  Lookarounds always inspect the original subject string and replaced
text is not rescanned, so the whole pass is modelled by a single left-to-right
traversal carrying the flag "a pipe occurred earlier" and testing "a pipe
occurs later" on the unprocessed remainder. -/

/-- One global regex replacement pass `/(?<=\|[^|]*)c(?=[^|]*\|)/g → rep`. -/
def replacePass (c : Char) (rep : List Char) : Bool → List Char → List Char
  | _, [] => []
  | seen, x :: xs =>
    if x = '|' then x :: replacePass c rep true xs
    else if seen = true ∧ x = c ∧ '|' ∈ xs then rep ++ replacePass c rep seen xs
    else x :: replacePass c rep seen xs

/-- The three replacement passes of `processMarkdown`, in source order:
`;` to `&semi;`, then `\x7b` to `&lbrace;`, then `\x7d` to `&rbrace;`. -/
def escapeTableChars (cs : List Char) : List Char :=
  replacePass '\x7d' "&rbrace;".data false
    (replacePass '\x7b' "&lbrace;".data false
      (replacePass ';' "&semi;".data false cs))

/-- The YAML front-matter block prepended verbatim by `processMarkdown`. -/
def frontMatter : String :=
  "---\neditLink: false\nprev: false\nnext: false\noutline: false\n---\n"

/-- `processMarkdown`: escape the three special characters between pipes, then
prepend the front-matter block. -/
def processMarkdown (md : String) : String :=
  frontMatter ++ String.mk (escapeTableChars md.data)

/-! Specification-side description of the escaping step, written from the
spec sentence "within table cells only (text delimited by `|` characters, not
spanning across a `|`), escape semicolon, `\x7b`, `\x7d` to their named
character references".  It is compared with the source-derived
`escapeTableChars` in the theorem for claim C2. -/

/-- Per-character named-character-reference escaping used inside cells. -/
def escapeCellChar (ch : Char) : List Char :=
  if ch = ';' then "&semi;".data
  else if ch = '\x7b' then "&lbrace;".data
  else if ch = '\x7d' then "&rbrace;".data
  else [ch]

/-- Modelled from the spec: split at pipes, escape the three characters in
every segment lying strictly between two pipes, leave the text before the
first pipe and after the last pipe untouched. -/
def escapeTableSpec (cs : List Char) : List Char :=
  joinPipes (mapInner (fun seg => seg.flatMap escapeCellChar) (splitOnPipe cs))

/-! ### The combined .NET index

The script concatenates the per-project generated Markdown in `projectList`
order, then runs `indexMarkdown.replace(/^# .*$/gm, '')` (every line that
starts with a level-1 header marker becomes an empty line) and finally
prepends the new top-level header line. -/

/-- A line matching the `gm`-flagged regex `^# .*$`. -/
def isH1Line (l : List Char) : Bool :=
  match l with
  | '#' :: ' ' :: _ => true
  | _ => false

/-- The replacement `indexMarkdown.replace(/^# .*$/gm, '')`: every level-1
header line is blanked (the newline itself is not part of the match). -/
def stripH1Lines (cs : List Char) : List Char :=
  joinLines ((splitLines cs).map (fun l => if isH1Line l then [] else l))

/-- Building the combined index: concatenate the per-project Markdown strings
in configured order, blank all level-1 header lines, and prepend the single
new top-level header. -/
def combineIndexMarkdown (docs : List String) : String :=
  "# .NET API Reference\n" ++ String.mk (stripH1Lines (String.join docs).data)

/-! ### The navigation-tree builder (`generateNavigationTree`) -/

/-- A vitepress sidebar node as pushed by the script: `collapsed` is
`subItems ? true : undefined` where `subItems` is `undefined` exactly when no
matching subdirectory exists. -/
inductive NavItem : Type where
  | mk : String → String → Option (List NavItem) → Option Bool → NavItem

def NavItem.text : NavItem → String
  | .mk t _ _ _ => t

def NavItem.link : NavItem → String
  | .mk _ l _ _ => l

def NavItem.subItems : NavItem → Option (List NavItem)
  | .mk _ _ i _ => i

def NavItem.collapsed : NavItem → Option Bool
  | .mk _ _ _ c => c

/-- A directory as seen by the script: the Markdown files it directly contains
(base name without the `.md` extension, paired with the file content) and its
subdirectories. -/
inductive Dir : Type where
  | mk : List (String × String) → List (String × Dir) → Dir

def Dir.files : Dir → List (String × String)
  | .mk fs _ => fs

def Dir.subdirs : Dir → List (String × Dir)
  | .mk _ ds => ds

/-- Look up the content of a Markdown file by base name. -/
def lookupFile : List (String × String) → String → Option String
  | [], _ => none
  | (n, c) :: rest, f => if n = f then some c else lookupFile rest f

/-- Look up a subdirectory by name (`fs.existsSync` plus `lstatSync(..).isDirectory()`). -/
def findSubdir : List (String × Dir) → String → Option Dir
  | [], _ => none
  | (n, d) :: rest, f => if n = f then some d else findSubdir rest f

/-- The JavaScript `Array.prototype.sort()` call on the base file names:
a stable sort by lexicographic string order (code-unit comparison in JS,
which agrees with the Lean character order on the ASCII names involved),
modelled by stable insertion sort. -/
def sortNames (l : List String) : List String :=
  l.insertionSort (· ≤ ·)

/-- `getMarkdownFileHeaders`: the lines of the file matching
`^mark (.*)$` with the `gm` flags, with the marker and the following space
removed. -/
def headerLines (content : String) (mark : String) : List String :=
  (splitLines content.data).filterMap (fun l =>
    if (mark.data ++ [' ']).isPrefixOf l then some (String.mk (l.drop (mark.data.length + 1)))
    else none)

/-- Does the regex ` \(\d.*\)$` match at the start of this character list?
The pattern needs a space, an opening parenthesis, a digit, then any
non-newline characters up to a closing parenthesis that ends the string. -/
def overloadAt : List Char → Bool
  | ' ' :: '(' :: c :: rest =>
    c.isDigit &&
      (match rest.getLast? with
       | some ')' => rest.dropLast.all (fun x => x ≠ '\n')
       | _ => false)
  | _ => false

/-- Index of the leftmost match of ` \(\d.*\)$`, if any. -/
def findOverloadIdx : List Char → Option Nat
  | [] => none
  | x :: rest =>
    if overloadAt (x :: rest) then some 0 else (findOverloadIdx rest).map (· + 1)

/-- `/ \(\d.*\)$/.test(header)`. -/
def hasOverloadSuffix (s : String) : Bool :=
  (findOverloadIdx s.data).isSome

/-- `header.replace(/ \(\d.*\)$/, '')`: since the match always extends to the
end of the string, the replacement keeps the prefix before the match. -/
def stripOverloadSuffix (s : String) : String :=
  match findOverloadIdx s.data with
  | some i => String.mk (s.data.take i)
  | none => s

/-- The overload-merging step of `generateNavigationTree`: only the FIRST
extracted header is tested against the overload pattern; on a match the whole
header list collapses to that single stripped header. -/
def collapseOverloads (headers : List String) : List String :=
  match headers with
  | [] => []
  | h :: rest => if hasOverloadSuffix h then [stripOverloadSuffix h] else h :: rest

/-- Suffix test ` namespace$` on a header via its character list. -/
def isNamespaceHeader (s : String) : Bool :=
  " namespace".data.isSuffixOf s.data

/-- `header.replace(/ namespace$/, '')`. -/
def dropNamespaceSuffix (s : String) : String :=
  if isNamespaceHeader s then String.mk (s.data.take (s.data.length - " namespace".data.length))
  else s

/-- `String.prototype.replace` with a plain-string pattern replaces only the
first occurrence. -/
def replaceFirstSub (pat rep : List Char) : List Char → List Char
  | [] => []
  | x :: rest =>
    if pat.isPrefixOf (x :: rest) then rep ++ (x :: rest).drop pat.length
    else x :: replaceFirstSub pat rep rest

/-- The sidebar-label shortening: drop a ` namespace` suffix, then replace the
first occurrence of `structure` by `struct`. -/
def shortenHeader (s : String) : String :=
  String.mk (replaceFirstSub "structure".data "struct".data (dropNamespaceSuffix s).data)

/-- `header.replace(/\.| /g, '-').toLowerCase()` used for namespace anchors. -/
def anchorize (s : String) : String :=
  String.mk (s.data.map (fun c => if c = '.' ∨ c = ' ' then '-' else c.toLower))

/-- `path.join` on the two relative segments used by the script (empty
segments are dropped by `path.join`). -/
def joinRel (a b : String) : String :=
  if a = "" then b else a ++ "/" ++ b

/-- The fixed site prefix of all generated links. -/
def referencePath : String := "/reference/dotnet/"

/-- Construction of one pushed sidebar object: the link is the joined file
path unless the header is a namespace header, in which case it is an anchor
into the combined index; `collapsed` is `true` exactly when `subItems` is
defined. -/
def navItemForHeader (subPath file header : String) (subItems : Option (List NavItem)) :
    NavItem :=
  let link :=
    if isNamespaceHeader header then referencePath ++ "#" ++ anchorize header
    else referencePath ++ joinRel subPath file
  NavItem.mk (shortenHeader header) link subItems
    (if subItems.isSome then some true else none)

/-- `sizeOf` of a looked-up subdirectory is smaller than the list it came from. -/
theorem findSubdir_sizeOf {l : List (String × Dir)} {f : String} {sd : Dir}
    (h : findSubdir l f = some sd) : sizeOf sd < sizeOf l := by
  induction l with
  | nil => simp [findSubdir] at h
  | cons p rest ih =>
    obtain ⟨n, d⟩ := p
    by_cases hn : n = f
    · simp [findSubdir, hn] at h
      subst h
      simp only [List.cons.sizeOf_spec, Prod.mk.sizeOf_spec]
      omega
    · simp [findSubdir, hn] at h
      have := ih h
      simp only [List.cons.sizeOf_spec, Prod.mk.sizeOf_spec]
      omega

theorem sizeOf_subdirs_lt (d : Dir) : sizeOf d.subdirs < sizeOf d := by
  cases d with
  | mk fs ds =>
    simp only [Dir.subdirs, Dir.mk.sizeOf_spec]
    omega

/-- `generateNavigationTree`: list the `.md` base names sorted, and for each
file map every (possibly collapsed) header to a pushed sidebar object,
recursing into a subdirectory with the same base name when one exists.
The top-level call uses marker `##`, recursive calls use `#`
(`subDir ? '#' : '##'`). -/
def genNav (d : Dir) (subPath : String) : List NavItem :=
  (sortNames (d.files.map Prod.fst)).flatMap (fun f =>
    let content := (lookupFile d.files f).getD ""
    let headers := collapseOverloads (headerLines content (if subPath = "" then "##" else "#"))
    headers.map (fun header =>
      navItemForHeader subPath f header
        (match hs : findSubdir d.subdirs f with
         | some sd => some (genNav sd (joinRel subPath f))
         | none => none)))
termination_by sizeOf d
decreasing_by
  have h1 := findSubdir_sizeOf hs
  have h2 := sizeOf_subdirs_lt d
  omega

/-! ### The JS declaration-doc renderer: `typeToMarkdown`

A typedoc type node is modelled with the four fields the function reads:
the `type` tag string, the literal `value`, the `name`, and the
`declaration.signatures` list where each signature is a parameter list
(name paired with optional type) together with an optional return type.
All fields are optional, matching absent JSON properties. -/

/-- A JSON literal value as produced by typedoc for literal types. -/
inductive LitValue : Type where
  | str : String → LitValue
  | num : Int → LitValue
  | boolean : Bool → LitValue
  | null : LitValue

/-- `JSON.stringify` on the supported literal values (strings get quoted with
the usual escapes; other control characters below 0x20 do not occur in the
literals of this code base). -/
def jsonEscapeChar (c : Char) : List Char :=
  if c = '"' then ['\\', '"']
  else if c = '\\' then ['\\', '\\']
  else if c = '\n' then ['\\', 'n']
  else if c = '\t' then ['\\', 't']
  else if c = '\r' then ['\\', 'r']
  else [c]

def jsonStringify : LitValue → String
  | .str s => String.mk ('"' :: (s.data.flatMap jsonEscapeChar ++ ['"']))
  | .num n => toString n
  | .boolean b => if b then "true" else "false"
  | .null => "null"

/-- `JSON.stringify(type.value)` where an absent `value` stringifies to the
undefined value, which the surrounding string concatenation renders as the
text `undefined`. -/
def jsonStringifyOpt : Option LitValue → String
  | some v => jsonStringify v
  | none => "undefined"

/-- A typedoc type node: tag (`type`), literal value, `name`, and
`declaration` with its signature list. -/
inductive TsType : Type where
  | mk : Option String → Option LitValue → Option String →
      Option (List (List (String × Option TsType) × Option TsType)) → TsType

/-- The parameter list of a signature: names paired with optional types. -/
abbrev TsParams := List (String × Option TsType)

/-! `typeToMarkdown` with its fallback chain exactly as in the source:

1. `type?.type === 'literal'` renders the stringified literal value;
2. otherwise a truthy `type?.name` (present and non-empty) renders the name;
3. otherwise `type.declaration?.signatures?.length === 1` renders an arrow
   signature, recursing into the parameter types and the return type;
4. otherwise the result is the string `unknown`.

Crucially, step 3 reads `type.declaration` without optional chaining on
`type` itself, so an absent type raises a `TypeError` instead of reaching the
`unknown` fallback; the error is modelled with `Except.error`.  `paramsToMd`
renders the parameters left to right, short-circuiting on the first raised
error exactly as the JS `map` callback would.  The truthiness test on
`type?.name` is expressed as `nm.getD "" ≠ ""`: it fails exactly when the
name is absent or the empty string. -/
mutual

def typeToMarkdown : Option TsType → Except String String
  | some (TsType.mk tg v nm dc) =>
    if tg = some "literal" then .ok (jsonStringifyOpt v)
    else if nm.getD "" ≠ "" then .ok (nm.getD "")
    else
      match dc with
      | some [(params, ret)] => do
        let ps ← paramsToMd params
        let r ← typeToMarkdown ret
        .ok ("(" ++ String.intercalate ", " ps ++ ") => " ++ r)
      | _ => .ok "unknown"
  | none => .error "TypeError: Cannot read properties of undefined"

def paramsToMd : TsParams → Except String (List String)
  | [] => .ok []
  | (pn, pt) :: rest => do
    let t ← typeToMarkdown pt
    let r ← paramsToMd rest
    .ok ((pn ++ ": " ++ t) :: r)

end

/-! ### Process-level model of the JS docs pipeline (`exportJsdocToJson` and
the top-level promise chain) -/

/-- The effects the JS pipeline depends on: whether the entry-point
declaration file exists, and the result of the typedoc conversion
(`app.convert()` followed by `generateJson` and the JSON read-back),
`none` when the conversion yields no project. -/
structure JsDocsEnv : Type where
  typedefsFileExists : Bool
  convertResult : Option String

/-- The entry-point declaration file path `path.join(srcDir, 'index.d.ts')`
(directory roots abstracted to the repository-relative path). -/
def packageTypedefsFile : String := "src/node-api-dotnet/index.d.ts"

/-- `exportJsdocToJson`: missing entry point and failed conversion each throw
with the exact source message; otherwise the serialized project JSON is
returned. -/
def exportJsdocToJson (env : JsDocsEnv) : Except String String :=
  if env.typedefsFileExists = false then
    .error ("File not found: " ++ packageTypedefsFile)
  else
    match env.convertResult with
    | none => .error "Failed to convert TypeScript to documentation."
    | some json => .ok json

/-- Observable outcome of one script run: the process exit code, the messages
written to the error stream, and the content written to `index.md` when the
write happens. -/
structure JsScriptResult : Type where
  exitCode : Nat
  errorLog : List String
  writtenIndex : Option String
  deriving DecidableEq

/-- The top-level promise chain of the JS docs script:
`exportJsdocToJson().then(convertJsonToMarkdown).then(write index.md)` with a
`.catch` that prints the message and calls `process.exit(1)`.  The Markdown
rendering step (`convertJsonToMarkdown`, infallible string formatting) is
passed as a function argument. -/
def runJsDocsScript (env : JsDocsEnv) (convert : String → String) : JsScriptResult :=
  match exportJsdocToJson env with
  | .ok json => ⟨0, [], some (convert json)⟩
  | .error e => ⟨1, [e], none⟩

/-! ### Process-level model of the .NET docs pipeline -/

/-- Outcome of `childProcess.execSync`: success, a non-zero exit status, or a
failure without a status (for example a spawn error). -/
inductive CmdOutcome : Type where
  | success : CmdOutcome
  | failStatus : Nat → CmdOutcome
  | failOther : String → CmdOutcome

/-- The effects the .NET docs script depends on: the outcome of each executed
command line, file existence, file contents, and the runtime identifier
determined from `process.platform` and `process.arch`. -/
structure DocsEnv : Type where
  cmdOutcome : String → CmdOutcome
  fileExists : String → Bool
  readFile : String → String
  rid : String

/-- `exec`: run a command; a failure with a truthy (non-zero) status is
rethrown as `Command executed with status: N`, any other failure is rethrown
unchanged. -/
def exec (env : DocsEnv) (cmd : String) : Except String Unit :=
  match env.cmdOutcome cmd with
  | .success => .ok ()
  | .failStatus n =>
    if n ≠ 0 then .error ("Command executed with status: " ++ toString n)
    else .error "Command failed"
  | .failOther msg => .error msg

def assemblyNamePrefix : String := "Microsoft.JavaScript."

def docsTargetFramework : String := "net6.0"

def docsConfiguration : String := "Release"

/-- The configured projects, in order, with the projects they reference. -/
def projectList : List (String × List String) :=
  [("NodeApi", []), ("NodeApi.DotNetHost", ["NodeApi"])]

/-- `dotnet build` command line for a project (directory roots abstracted to
repository-relative paths). -/
def buildCmd (projectName : String) : String :=
  "dotnet build \"src/" ++ projectName ++ "\" -c " ++ docsConfiguration ++
    " -f " ++ docsTargetFramework ++
    " -p:GenerateDocumentationFile=true -p:NoWarn=CS1591 -t:Rebuild"

/-- The platform- and architecture-qualified output directory of a project. -/
def projectBinDir (rid projectName : String) : String :=
  "out/bin/" ++ docsConfiguration ++ "/" ++ projectName ++ "/" ++
    docsTargetFramework ++ "/" ++ rid

/-- The XmlDocMarkdown invocation for an assembly, with one `--external`
argument per referenced assembly. -/
def xmlDocMdCmd (assemblyFilePath : String) (assemblyReferences : List String) : String :=
  "dotnet run -c Release -f " ++ docsTargetFramework ++ " --project docs2/reference --" ++
    " \"" ++ assemblyFilePath ++ "\" \"docs2/reference/dotnet\" --obsolete" ++
    " --source \"https://github.com/microsoft/node-api-dotnet/tree/main/src\"" ++
    String.join (assemblyReferences.map (fun r => " --external \"" ++ r ++ "\""))

/-- `buildProjectXmldocs`: build the project, then require both the compiled
assembly and the XML doc file to exist, throwing the source error messages
otherwise; returns the assembly path. -/
def buildProjectXmldocs (env : DocsEnv) (projectName assemblyName : String) :
    Except String String := do
  let _ ← exec env (buildCmd projectName)
  let binDir := projectBinDir env.rid projectName
  let assemblyFilePath := binDir ++ "/" ++ assemblyName ++ ".dll"
  if env.fileExists assemblyFilePath = false then
    throw ("Assembly file was not found at " ++ assemblyFilePath)
  let xmldocFilePath := binDir ++ "/" ++ assemblyName ++ ".xml"
  if env.fileExists xmldocFilePath = false then
    throw ("XML doc file was not found at " ++ xmldocFilePath)
  return assemblyFilePath

/-- `buildProjectMarkdownDocs`: build the XML docs, run the converter with the
referenced assemblies as `--external` hints, and read back the generated
per-assembly Markdown. -/
def buildProjectMarkdownDocs (env : DocsEnv) (projectName : String)
    (projectReferences : List String) : Except String String := do
  let assemblyName := assemblyNamePrefix ++ projectName
  let assemblyFilePath ← buildProjectXmldocs env projectName assemblyName
  let assemblyReferences := projectReferences.map (fun p => assemblyNamePrefix ++ p)
  let _ ← exec env (xmlDocMdCmd assemblyFilePath assemblyReferences)
  return env.readFile ("docs2/reference/dotnet/" ++ assemblyName ++ ".md")

/-- The fallible spine of the `try` block: build each configured project in
order and accumulate the per-project Markdown into the combined index string.
(The subsequent navigation-tree generation, file writes and Markdown
post-processing are infallible in this model.) -/
def docsScriptBody (env : DocsEnv) : Except String String :=
  projectList.foldlM
    (fun acc pr => do
      let md ← buildProjectMarkdownDocs env pr.1 pr.2
      return acc ++ md)
    ""

/-- Observable outcome of one run of the .NET docs script. -/
structure DocsScriptResult : Type where
  exitCode : Nat
  errorLog : List String
  deriving DecidableEq

/-- The whole .NET docs script: the `try` block body, wrapped by the
top-level `catch (e) { console.error(e.message || e); }` handler, which logs
the error but never calls `process.exit`, so the process finishes normally
with exit code 0 on both paths. -/
def runDotnetDocsScript (env : DocsEnv) : DocsScriptResult :=
  match docsScriptBody env with
  | .ok _ => ⟨0, []⟩
  | .error e => ⟨0, [e]⟩

/-- The contribution of a single Markdown file to the current sidebar level:
the body of the outer `forEach` of `generateNavigationTree` for one base file
name, with the recursive call to `genNav` for a matching subdirectory. -/
def fileItems (d : Dir) (subPath f : String) : List NavItem :=
  (collapseOverloads (headerLines ((lookupFile d.files f).getD "")
      (if subPath = "" then "##" else "#"))).map
    (fun header =>
      navItemForHeader subPath f header
        (match findSubdir d.subdirs f with
         | some sd => some (genNav sd (joinRel subPath f))
         | none => none))

/-- The invariant of claim C9, as a recursively checked predicate: a node with
sub-items has `collapsed = some true`, a node without sub-items has no
`collapsed` field at all, and the same holds in every nested list. -/
def navInvB (item : NavItem) : Bool :=
  match item with
  | NavItem.mk _ _ none c => decide (c = none)
  | NavItem.mk _ _ (some sub) c =>
    decide (c = some true) && sub.attach.all (fun x => navInvB x.1)
termination_by sizeOf item
decreasing_by
  have := List.sizeOf_lt_of_mem x.2
  simp only [NavItem.mk.sizeOf_spec, Option.some.sizeOf_spec]
  omega

/-- Single-character escaping pass at the segment level: replace every
occurrence of `c` inside the segment by `rep`. -/
def escSeg (c : Char) (rep : List Char) (seg : List Char) : List Char :=
  seg.flatMap (fun x => if x = c then rep else [x])

/-- Apply `f` to every element of a list except the last one. -/
def applyButLast (f : List Char → List Char) : List (List Char) → List (List Char)
  | [] => []
  | x :: xs => mapInnerAux f x xs

/-- The six lines of the front-matter block, without the line terminators. -/
def fmLines : List (List Char) :=
  ["---".data, "editLink: false".data, "prev: false".data, "next: false".data,
    "outline: false".data, "---".data]

/-- A line of the front-matter block carrying a key (it contains a colon). -/
def isKeyValueLine (l : List Char) : Bool := ':' ∈ l

/-! ### Concrete inputs used by counterexamples and witnesses -/

/-- A directory with one Markdown file whose SECOND header carries an
overload-count suffix. -/
def dirOverloadSecond : Dir :=
  Dir.mk [("X", "## Foo\n## Bar (2 overloads)\n")] []

/-- A directory with one Markdown file whose FIRST header carries an
overload-count suffix. -/
def dirOverloadFirst : Dir :=
  Dir.mk [("X", "## Baz (3 overloads)\n## Other\n")] []

/-- A directory with two files and a subdirectory matching one of them, for
exercising sorting, recursion, and the collapsed invariant. -/
def dirNested : Dir :=
  Dir.mk [("B", "## Beta\n"), ("A", "## Alpha namespace\n")]
    [("B", Dir.mk [("C", "# Gamma structure\n")] [])]

/-- An environment in which every executed command fails with exit status 1. -/
def failingDocsEnv : DocsEnv :=
  ⟨fun _ => CmdOutcome.failStatus 1, fun _ => true, fun _ => "", "linux-x64"⟩

/-- An environment in which every step succeeds. -/
def happyDocsEnv : DocsEnv :=
  ⟨fun _ => CmdOutcome.success, fun _ => true, fun _ => "# md\n", "linux-x64"⟩

/-! ### Helper lemmas -/

theorem string_data_append (a b : String) : (a ++ b).data = a.data ++ b.data := rfl

/-- `List.all` over an attached list coincides with `List.all`. -/
theorem all_attach_eq (l : List NavItem) (p : NavItem → Bool) :
    (l.attach.all fun x => p x.1) = l.all p := by
  rw [Bool.eq_iff_iff]
  simp [List.all_eq_true]

/-- Unconditional unfolding of `typeToMarkdown` on a present type value. -/
theorem typeToMarkdown_some_eq (tg : Option String) (v : Option LitValue)
    (nm : Option String) (dc : Option (List (TsParams × Option TsType))) :
    typeToMarkdown (some (TsType.mk tg v nm dc)) =
      (if tg = some "literal" then Except.ok (jsonStringifyOpt v)
       else if nm.getD "" ≠ "" then Except.ok (nm.getD "")
       else
         match dc with
         | some [(params, ret)] => do
             let ps ← paramsToMd params
             let r ← typeToMarkdown ret
             Except.ok ("(" ++ String.intercalate ", " ps ++ ") => " ++ r)
         | _ => Except.ok "unknown") := by
  rcases dc with _ | l
  · rw [typeToMarkdown.eq_2 _ _ _ _ (by simp)]
  · rcases l with _ | ⟨x, rest⟩
    · rw [typeToMarkdown.eq_2 _ _ _ _ (by simp)]
    · rcases rest with _ | ⟨y, rest2⟩
      · obtain ⟨params, ret⟩ := x
        rw [typeToMarkdown.eq_1]
      · rw [typeToMarkdown.eq_2 _ _ _ _ (by simp)]

/-! ### Claim C1: exit-code behaviour of the .NET docs pipeline -/

/-- Claim C1 (status code_bug): the claim says a failing build or conversion
command makes the process exit non-zero; the script catches every error,
writes the message to the error stream, and finishes normally, so the exit
code is 0 on EVERY run.  The second conjunct evaluates the script on an
environment whose `dotnet build` exits with status 1: the error is reported
(with the status in the message, as the `exec` wrapper formats it) but the
exit code is still 0. -/
theorem dotnetDocsScript_always_exits_zero :
    (∀ env : DocsEnv, (runDotnetDocsScript env).exitCode = 0) ∧
    runDotnetDocsScript failingDocsEnv =
      ⟨0, ["Command executed with status: 1"]⟩ ∧
    runDotnetDocsScript happyDocsEnv = ⟨0, []⟩ := by
  refine ⟨fun env => ?_, by decide, by decide⟩
  unfold runDotnetDocsScript
  cases docsScriptBody env <;> rfl

/-! ### Claim C8: failure behaviour of the JS docs pipeline -/

/-- Claim C8: if the entry-point declaration file is absent the pipeline
aborts with an error naming the missing path, and if the conversion yields no
result it aborts with the generic conversion error; in both cases the process
exits with status 1 and `index.md` is not written. -/
theorem jsDocsScript_failure_behaviour (env : JsDocsEnv) (convert : String → String) :
    (env.typedefsFileExists = false →
      runJsDocsScript env convert =
        ⟨1, ["File not found: " ++ packageTypedefsFile], none⟩) ∧
    (env.typedefsFileExists = true → env.convertResult = none →
      runJsDocsScript env convert =
        ⟨1, ["Failed to convert TypeScript to documentation."], none⟩) := by
  constructor
  · intro h
    simp [runJsDocsScript, exportJsdocToJson, h]
  · intro h1 h2
    simp [runJsDocsScript, exportJsdocToJson, h1, h2]

/-- Witness for C8 at the two concrete failing environments. -/
theorem jsDocsScript_failure_behaviour_witness :
    runJsDocsScript ⟨false, none⟩ id =
      ⟨1, ["File not found: " ++ packageTypedefsFile], none⟩ ∧
    runJsDocsScript ⟨true, none⟩ id =
      ⟨1, ["Failed to convert TypeScript to documentation."], none⟩ :=
  ⟨(jsDocsScript_failure_behaviour ⟨false, none⟩ id).1 rfl,
   (jsDocsScript_failure_behaviour ⟨true, none⟩ id).2 rfl rfl⟩

/-! ### Claim C7: the `typeToMarkdown` fallback chain -/

/-- Counterexample to claim C7 as stated: for an absent type the renderer
does not produce the sentinel `unknown`; the unguarded member access
`type.declaration` raises a `TypeError` instead. -/
theorem typeToMarkdown_absent_cex :
    typeToMarkdown none ≠ Except.ok "unknown" ∧
    typeToMarkdown none = Except.error "TypeError: Cannot read properties of undefined" := by
  refine ⟨?_, typeToMarkdown.eq_3⟩
  rw [typeToMarkdown.eq_3]
  simp

/-- Claim C7 (amended): the fallback chain is literal value, then truthy
name, then single-signature arrow rendering, then the sentinel `unknown` —
but only for PRESENT type values; an absent type raises a `TypeError`
(modelled as `Except.error`) rather than rendering `unknown`.  Each conjunct
fixes one stage of the chain while leaving the later-stage fields arbitrary,
which shows the order of the fallbacks. -/
theorem typeToMarkdown_fallback_chain :
    (∀ (v : Option LitValue) (nm : Option String)
       (dc : Option (List (TsParams × Option TsType))),
       typeToMarkdown (some (TsType.mk (some "literal") v nm dc)) =
         Except.ok (jsonStringifyOpt v)) ∧
    (∀ (tg : Option String) (v : Option LitValue) (n : String)
       (dc : Option (List (TsParams × Option TsType))),
       tg ≠ some "literal" → n ≠ "" →
       typeToMarkdown (some (TsType.mk tg v (some n) dc)) = Except.ok n) ∧
    (∀ (tg : Option String) (v : Option LitValue) (nm : Option String)
       (params : TsParams) (ret : Option TsType),
       tg ≠ some "literal" → nm.getD "" = "" →
       typeToMarkdown (some (TsType.mk tg v nm (some [(params, ret)]))) =
         (do
           let ps ← paramsToMd params
           let r ← typeToMarkdown ret
           Except.ok ("(" ++ String.intercalate ", " ps ++ ") => " ++ r))) ∧
    (∀ (tg : Option String) (v : Option LitValue) (nm : Option String)
       (dc : Option (List (TsParams × Option TsType))),
       tg ≠ some "literal" → nm.getD "" = "" →
       (∀ params ret, dc ≠ some [(params, ret)]) →
       typeToMarkdown (some (TsType.mk tg v nm dc)) = Except.ok "unknown") ∧
    typeToMarkdown none = Except.error "TypeError: Cannot read properties of undefined" := by
  refine ⟨?_, ?_, ?_, ?_, typeToMarkdown.eq_3⟩
  · intro v nm dc
    rw [typeToMarkdown_some_eq, if_pos rfl]
  · intro tg v n dc htg hn
    rw [typeToMarkdown_some_eq, if_neg htg,
      if_pos (show (some n : Option String).getD "" ≠ "" by simpa using hn)]
    rfl
  · intro tg v nm params ret htg hnm
    rw [typeToMarkdown_some_eq, if_neg htg, if_neg (show ¬nm.getD "" ≠ "" by simp [hnm])]
  · intro tg v nm dc htg hnm hdc
    rw [typeToMarkdown_some_eq, if_neg htg, if_neg (show ¬nm.getD "" ≠ "" by simp [hnm])]
    rcases dc with _ | l
    · rfl
    · rcases l with _ | ⟨x, rest⟩
      · rfl
      · rcases rest with _ | ⟨y, rest2⟩
        · obtain ⟨params, ret⟩ := x
          exact absurd rfl (hdc params ret)
        · rfl

/-- Witness for C7 at concrete inputs for every stage of the chain. -/
theorem typeToMarkdown_fallback_chain_witness :
    typeToMarkdown (some (TsType.mk (some "literal") (some (LitValue.str "ab"))
        (some "ignored") none)) = Except.ok "\"ab\"" ∧
    typeToMarkdown (some (TsType.mk none none (some "MyType")
        (some [([], none)]))) = Except.ok "MyType" ∧
    typeToMarkdown (some (TsType.mk none none none
        (some [([("x", some (TsType.mk none none (some "number") none))],
          some (TsType.mk none none (some "void") none))]))) =
      Except.ok "(x: number) => void" ∧
    typeToMarkdown (some (TsType.mk none none (some "") none)) = Except.ok "unknown" := by
  refine ⟨?_, ?_, ?_, ?_⟩
  · exact typeToMarkdown_fallback_chain.1 (some (LitValue.str "ab")) (some "ignored") none
  · exact typeToMarkdown_fallback_chain.2.1 none none "MyType" (some [([], none)])
      (by simp) (by simp)
  · have h := typeToMarkdown_fallback_chain.2.2.1 none none none
      [("x", some (TsType.mk none none (some "number") none))]
      (some (TsType.mk none none (some "void") none)) (by simp) (by simp)
    rw [h]
    simp [paramsToMd, typeToMarkdown]
    rfl
  · exact typeToMarkdown_fallback_chain.2.2.2.1 none none (some "") none
      (by simp) (by simp) (by simp)

/-! ### Navigation-tree lemmas -/

/-- `genNav` is the concatenation of the per-file contributions over the
sorted base file names. -/
theorem genNav_eq_flatMap (d : Dir) (sp : String) :
    genNav d sp = (sortNames (d.files.map Prod.fst)).flatMap (fileItems d sp) := by
  rw [genNav]
  congr 1
  funext f
  simp only [fileItems]
  cases hE : findSubdir d.subdirs f <;> simp [hE]

/-- Splitting a sorted list at two members in strict order. -/
theorem sorted_split {l : List String} (hsort : l.Sorted (· ≤ ·)) {a b : String}
    (ha : a ∈ l) (hb : b ∈ l) (hab : a < b) :
    ∃ l1 l2 l3, l = l1 ++ a :: (l2 ++ b :: l3) := by
  induction l with
  | nil => cases ha
  | cons x xs ih =>
    rw [List.sorted_cons] at hsort
    obtain ⟨hx, hxs⟩ := hsort
    rcases List.mem_cons.mp ha with rfl | ha'
    · have hb' : b ∈ xs := by
        rcases List.mem_cons.mp hb with rfl | h
        · exact absurd hab (lt_irrefl b)
        · exact h
      obtain ⟨s, t, rfl⟩ := List.append_of_mem hb'
      exact ⟨[], s, t, rfl⟩
    · have hb' : b ∈ xs := by
        rcases List.mem_cons.mp hb with rfl | h
        · exact absurd (hx a ha') (not_le.mpr hab)
        · exact h
      obtain ⟨l1, l2, l3, rfl⟩ := ih hxs ha' hb'
      exact ⟨x :: l1, l2, l3, rfl⟩

/-- Strong-induction helper for the collapsed-field invariant of claim C9. -/
theorem genNav_inv_aux :
    ∀ (n : Nat) (d : Dir), sizeOf d ≤ n → ∀ sp, (genNav d sp).all navInvB = true := by
  intro n
  induction n with
  | zero =>
    intro d hd sp
    exfalso
    cases d with
    | mk a b =>
      simp only [Dir.mk.sizeOf_spec] at hd
      omega
  | succ n ih =>
    intro d hd sp
    rw [genNav_eq_flatMap, List.all_eq_true]
    intro item hitem
    rw [List.mem_flatMap] at hitem
    obtain ⟨f, hf, hi⟩ := hitem
    rw [fileItems, List.mem_map] at hi
    obtain ⟨header, hh, rfl⟩ := hi
    rcases hfs : findSubdir d.subdirs f with _ | sd
    · simp only [navItemForHeader, hfs]
      rw [navInvB]
      rfl
    · have hsz : sizeOf sd ≤ n := by
        have h1 := findSubdir_sizeOf hfs
        have h2 := sizeOf_subdirs_lt d
        omega
      simp only [navItemForHeader, hfs]
      rw [navInvB, all_attach_eq]
      simp [ih sd hsz]

/-! ### Claim C9: the collapsed-field invariant -/

/-- Claim C9: every `NavItem` produced by the navigation-tree builder, at any
depth, has `collapsed = some true` exactly when its `items` field is present
(a matching subdirectory was recursed into) and no `collapsed` field at all
otherwise; `collapsed = some false` is never produced (`navInvB` checks
exactly this recursively). -/
theorem genNav_collapsed_invariant (d : Dir) (subPath : String) :
    (genNav d subPath).all navInvB = true :=
  genNav_inv_aux (sizeOf d) d (Nat.le_refl _) subPath

/-! ### Claim C10: sorted processing order of sibling files -/

/-- Claim C10: within a directory level the builder processes files in
lexicographically sorted order of their base names, so for two file names
`a < b` of the directory, the sorted traversal splits as
`l1 ++ a :: l2 ++ b :: l3` and the produced sibling list is the matching
concatenation, placing every item derived from `a` before every item derived
from `b`. -/
theorem genNav_sorted_order (d : Dir) (sp : String) (a b : String)
    (ha : a ∈ d.files.map Prod.fst) (hb : b ∈ d.files.map Prod.fst) (hab : a < b) :
    ∃ l1 l2 l3,
      sortNames (d.files.map Prod.fst) = l1 ++ a :: (l2 ++ b :: l3) ∧
      genNav d sp =
        l1.flatMap (fileItems d sp) ++ (fileItems d sp a ++
          (l2.flatMap (fileItems d sp) ++ (fileItems d sp b ++
            l3.flatMap (fileItems d sp)))) := by
  have hsort : (sortNames (d.files.map Prod.fst)).Sorted (· ≤ ·) :=
    List.sorted_insertionSort _ _
  have hperm : List.Perm (sortNames (d.files.map Prod.fst)) (d.files.map Prod.fst) := by
    unfold sortNames
    exact List.perm_insertionSort _ _
  have hma : a ∈ sortNames (d.files.map Prod.fst) := hperm.mem_iff.mpr ha
  have hmb : b ∈ sortNames (d.files.map Prod.fst) := hperm.mem_iff.mpr hb
  obtain ⟨l1, l2, l3, hsplit⟩ := sorted_split hsort hma hmb hab
  refine ⟨l1, l2, l3, hsplit, ?_⟩
  rw [genNav_eq_flatMap, hsplit]
  simp [List.flatMap_append]

/-- Witness for C10 on a concrete directory with files named `B` and `A`. -/
theorem genNav_sorted_order_witness :
    ∃ l1 l2 l3,
      sortNames (dirNested.files.map Prod.fst) = l1 ++ "A" :: (l2 ++ "B" :: l3) ∧
      genNav dirNested "" =
        l1.flatMap (fileItems dirNested "") ++ (fileItems dirNested "" "A" ++
          (l2.flatMap (fileItems dirNested "") ++ (fileItems dirNested "" "B" ++
            l3.flatMap (fileItems dirNested "")))) :=
  genNav_sorted_order dirNested "" "A" "B" (by decide) (by decide)
    (by rw [String.lt_iff_toList_lt]; decide)

/-! ### Claim C4: overload-suffix collapsing -/

/-- Counterexample to claim C4 as stated: in `dirOverloadSecond` the single
file has headers `Foo` and `Bar (2 overloads)`; the suffixed header is not in
first position, so no collapsing happens at all: the builder emits TWO items
and keeps the suffix in the second text, instead of the claimed single item
with text `Bar`. -/
theorem genNav_overload_second_cex :
    (genNav dirOverloadSecond "").map NavItem.text = ["Foo", "Bar (2 overloads)"] ∧
    (genNav dirOverloadSecond "").length ≠ 1 := by
  rw [genNav]
  constructor
  · decide
  · decide

/-- Claim C4 (amended): only when the FIRST header of a file matches the
overload-count pattern does the builder collapse the file to a single
`NavItem`; its text is that header with the suffix discarded (followed by the
usual namespace/structure label shortening, which leaves a plain name
unchanged). -/
theorem fileItems_overload_first_collapses (d : Dir) (subPath f h : String)
    (rest : List String)
    (hh : headerLines ((lookupFile d.files f).getD "")
        (if subPath = "" then "##" else "#") = h :: rest)
    (hov : hasOverloadSuffix h = true) :
    (fileItems d subPath f).length = 1 ∧
    (fileItems d subPath f).map NavItem.text = [shortenHeader (stripOverloadSuffix h)] := by
  have hcoll : collapseOverloads (h :: rest) = [stripOverloadSuffix h] := by
    simp [collapseOverloads, hov]
  constructor
  · simp [fileItems, hh, hcoll]
  · simp [fileItems, hh, hcoll, navItemForHeader, NavItem.text]

/-- Witness for C4 (amended) on a concrete file whose first header is
`Baz (3 overloads)`: a single item with text `Baz`. -/
theorem fileItems_overload_first_collapses_witness :
    (fileItems dirOverloadFirst "" "X").length = 1 ∧
    (fileItems dirOverloadFirst "" "X").map NavItem.text =
      [shortenHeader (stripOverloadSuffix "Baz (3 overloads)")] :=
  fileItems_overload_first_collapses dirOverloadFirst "" "X" "Baz (3 overloads)" ["Other"]
    (by decide) (by decide)

/-! ### Lemmas about pipe-splitting and the escaping passes -/

theorem splitOnPipe_ne_nil (cs : List Char) : splitOnPipe cs ≠ [] := by
  cases cs with
  | nil => simp [splitOnPipe]
  | cons x xs =>
    rw [splitOnPipe]
    by_cases hx : x = '|'
    · simp [hx]
    · rw [if_neg hx]
      rcases splitOnPipe xs with _ | ⟨l, ls⟩ <;> simp

theorem splitOnPipe_no_pipe : ∀ {cs : List Char}, '|' ∉ cs → splitOnPipe cs = [cs] := by
  intro cs
  induction cs with
  | nil => intro _; rfl
  | cons x xs ih =>
    intro h
    have hx : x ≠ '|' := fun he => h (he ▸ List.mem_cons_self x xs)
    have hxs : '|' ∉ xs := fun hm => h (List.mem_cons_of_mem x hm)
    rw [splitOnPipe, if_neg hx, ih hxs]

theorem splitOnPipe_entry {seg : List Char} (h : '|' ∉ seg) (rest : List Char) :
    splitOnPipe (seg ++ '|' :: rest) = seg :: splitOnPipe rest := by
  induction seg with
  | nil => simp [splitOnPipe]
  | cons x xs ih =>
    have hx : x ≠ '|' := fun he => h (he ▸ List.mem_cons_self x xs)
    have hxs : '|' ∉ xs := fun hm => h (List.mem_cons_of_mem x hm)
    rw [List.cons_append, splitOnPipe, if_neg hx, ih hxs]

theorem mem_splitOnPipe_no_pipe : ∀ {cs l : List Char}, l ∈ splitOnPipe cs → '|' ∉ l := by
  intro cs
  induction cs with
  | nil =>
    intro l hl
    simp [splitOnPipe] at hl
    simp [hl]
  | cons x xs ih =>
    intro l hl
    rw [splitOnPipe] at hl
    by_cases hx : x = '|'
    · rw [if_pos hx] at hl
      rcases List.mem_cons.mp hl with rfl | h
      · simp
      · exact ih h
    · rw [if_neg hx] at hl
      rcases hsp : splitOnPipe xs with _ | ⟨m, ms⟩
      · exact absurd hsp (splitOnPipe_ne_nil xs)
      · rw [hsp] at hl
        rcases List.mem_cons.mp hl with rfl | h
        · intro hmem
          rcases List.mem_cons.mp hmem with he | hm
          · exact hx he.symm
          · exact ih (hsp ▸ List.mem_cons_self m ms) hm
        · exact ih (hsp ▸ List.mem_cons_of_mem m h)

theorem joinPipes_splitOnPipe : ∀ cs : List Char, joinPipes (splitOnPipe cs) = cs := by
  intro cs
  induction cs with
  | nil => rfl
  | cons x xs ih =>
    rw [splitOnPipe]
    by_cases hx : x = '|'
    · rw [if_pos hx]
      subst hx
      rcases hsp : splitOnPipe xs with _ | ⟨l, ls⟩
      · exact absurd hsp (splitOnPipe_ne_nil xs)
      · rw [hsp] at ih
        rw [joinPipes, ih]
        rfl
    · rw [if_neg hx]
      rcases hsp : splitOnPipe xs with _ | ⟨l, ls⟩
      · exact absurd hsp (splitOnPipe_ne_nil xs)
      · rw [hsp] at ih
        rcases ls with _ | ⟨m, ms⟩
        · rw [joinPipes] at ih
          rw [joinPipes, ih]
        · rw [joinPipes] at ih
          rw [joinPipes, ← ih]
          rfl

theorem splitOnPipe_joinPipes :
    ∀ {segs : List (List Char)}, segs ≠ [] → (∀ l ∈ segs, '|' ∉ l) →
      splitOnPipe (joinPipes segs) = segs := by
  intro segs
  induction segs with
  | nil => intro h; exact absurd rfl h
  | cons a rest ih =>
    intro _ hall
    rcases rest with _ | ⟨b, r⟩
    · rw [joinPipes, splitOnPipe_no_pipe (hall a (List.mem_cons_self a []))]
    · rw [joinPipes, splitOnPipe_entry (hall a (List.mem_cons_self a _))]
      rw [ih (by simp) (fun l hl => hall l (List.mem_cons_of_mem a hl))]

theorem replacePass_no_pipe (c : Char) (rep : List Char) (seen : Bool) :
    ∀ {cs : List Char}, '|' ∉ cs → replacePass c rep seen cs = cs := by
  intro cs
  induction cs with
  | nil => intro _; rfl
  | cons x xs ih =>
    intro h
    have hx : x ≠ '|' := fun he => h (he ▸ List.mem_cons_self x xs)
    have hxs : '|' ∉ xs := fun hm => h (List.mem_cons_of_mem x hm)
    rw [replacePass, if_neg hx, if_neg ?hcond, ih hxs]
    case hcond =>
      rintro ⟨_, _, hmem⟩
      exact hxs hmem

theorem replacePass_false_entry (c : Char) (rep : List Char) {seg : List Char}
    (h : '|' ∉ seg) (rest : List Char) :
    replacePass c rep false (seg ++ '|' :: rest) =
      seg ++ '|' :: replacePass c rep true rest := by
  induction seg with
  | nil => simp [replacePass]
  | cons x xs ih =>
    have hx : x ≠ '|' := fun he => h (he ▸ List.mem_cons_self x xs)
    have hxs : '|' ∉ xs := fun hm => h (List.mem_cons_of_mem x hm)
    rw [List.cons_append, replacePass, if_neg hx, if_neg ?hcond, ih hxs]
    case hcond =>
      rintro ⟨hfalse, _, _⟩
      exact Bool.false_ne_true hfalse
    rfl

theorem escSeg_cons (c : Char) (rep : List Char) (x : Char) (xs : List Char) :
    escSeg c rep (x :: xs) = (if x = c then rep else [x]) ++ escSeg c rep xs := by
  simp [escSeg]

theorem replacePass_true_mid (c : Char) (rep : List Char) {seg : List Char}
    (h : '|' ∉ seg) (rest : List Char) :
    replacePass c rep true (seg ++ '|' :: rest) =
      escSeg c rep seg ++ '|' :: replacePass c rep true rest := by
  induction seg with
  | nil => simp [replacePass, escSeg]
  | cons x xs ih =>
    have hx : x ≠ '|' := fun he => h (he ▸ List.mem_cons_self x xs)
    have hxs : '|' ∉ xs := fun hm => h (List.mem_cons_of_mem x hm)
    rw [List.cons_append, replacePass, if_neg hx, escSeg_cons]
    by_cases hxc : x = c
    · rw [if_pos ⟨rfl, hxc, by simp⟩, if_pos hxc, ih hxs]
      simp
    · rw [if_neg ?hcond, if_neg hxc, ih hxs]
      case hcond =>
        rintro ⟨_, hc, _⟩
        exact hxc hc
      rfl

theorem mapInnerAux_ne_nil (f : List Char → List Char) (cur : List Char)
    (rest : List (List Char)) : mapInnerAux f cur rest ≠ [] := by
  cases rest <;> simp [mapInnerAux]

theorem replacePass_true_join (c : Char) (rep : List Char) :
    ∀ (rest : List (List Char)) (cur : List Char), '|' ∉ cur → (∀ l ∈ rest, '|' ∉ l) →
      replacePass c rep true (joinPipes (cur :: rest)) =
        joinPipes (mapInnerAux (escSeg c rep) cur rest) := by
  intro rest
  induction rest with
  | nil =>
    intro cur hcur _
    rw [joinPipes, mapInnerAux, joinPipes, replacePass_no_pipe c rep true hcur]
  | cons nxt r ih =>
    intro cur hcur hall
    rw [joinPipes, replacePass_true_mid c rep hcur]
    rw [ih nxt (hall nxt (List.mem_cons_self nxt r))
      (fun l hl => hall l (List.mem_cons_of_mem nxt hl))]
    rw [mapInnerAux]
    rcases haux : mapInnerAux (escSeg c rep) nxt r with _ | ⟨y, ys⟩
    · exact absurd haux (mapInnerAux_ne_nil _ nxt r)
    · rw [joinPipes]

theorem replacePass_spec (c : Char) (rep : List Char) (cs : List Char) :
    replacePass c rep false cs = joinPipes (mapInner (escSeg c rep) (splitOnPipe cs)) := by
  rcases hsp : splitOnPipe cs with _ | ⟨s0, rest⟩
  · exact absurd hsp (splitOnPipe_ne_nil cs)
  · have hfree : ∀ l ∈ s0 :: rest, '|' ∉ l := fun l hl =>
      @mem_splitOnPipe_no_pipe cs l (hsp ▸ hl)
    have hcs : cs = joinPipes (s0 :: rest) := by
      rw [← hsp, joinPipes_splitOnPipe]
    rcases rest with _ | ⟨r0, r1⟩
    · rw [hcs, joinPipes, mapInner, joinPipes,
        replacePass_no_pipe c rep false (hfree s0 (List.mem_cons_self s0 []))]
    · rw [hcs, joinPipes,
        replacePass_false_entry c rep (hfree s0 (List.mem_cons_self s0 _))]
      rw [replacePass_true_join c rep r1 r0
        (hfree r0 (List.mem_cons_of_mem s0 (List.mem_cons_self r0 r1)))
        (fun l hl => hfree l (List.mem_cons_of_mem s0 (List.mem_cons_of_mem r0 hl)))]
      rw [mapInner]
      rcases haux : mapInnerAux (escSeg c rep) r0 r1 with _ | ⟨y, ys⟩
      · exact absurd haux (mapInnerAux_ne_nil _ r0 r1)
      · rw [joinPipes]

theorem escSeg_no_pipe {rep : List Char} (hrep : '|' ∉ rep) (c : Char)
    {seg : List Char} (h : '|' ∉ seg) : '|' ∉ escSeg c rep seg := by
  intro hm
  rw [escSeg, List.mem_flatMap] at hm
  obtain ⟨x, hx, hmem⟩ := hm
  by_cases hxc : x = c
  · rw [if_pos hxc] at hmem
    exact hrep hmem
  · rw [if_neg hxc] at hmem
    simp at hmem
    exact h (hmem ▸ hx)

theorem mapInnerAux_no_pipe {f : List Char → List Char}
    (hf : ∀ {l : List Char}, '|' ∉ l → '|' ∉ f l) :
    ∀ (rest : List (List Char)) (cur : List Char), '|' ∉ cur → (∀ l ∈ rest, '|' ∉ l) →
      ∀ l ∈ mapInnerAux f cur rest, '|' ∉ l := by
  intro rest
  induction rest with
  | nil =>
    intro cur hcur _ l hl
    rw [mapInnerAux] at hl
    simp at hl
    exact hl ▸ hcur
  | cons nxt r ih =>
    intro cur hcur hall l hl
    rw [mapInnerAux] at hl
    rcases List.mem_cons.mp hl with rfl | h
    · exact hf hcur
    · exact ih nxt (hall nxt (List.mem_cons_self nxt r))
        (fun m hm => hall m (List.mem_cons_of_mem nxt hm)) l h

theorem mapInner_no_pipe {f : List Char → List Char}
    (hf : ∀ {l : List Char}, '|' ∉ l → '|' ∉ f l)
    {segs : List (List Char)} (h : ∀ l ∈ segs, '|' ∉ l) :
    ∀ l ∈ mapInner f segs, '|' ∉ l := by
  rcases segs with _ | ⟨a, rest⟩
  · intro l hl
    simp [mapInner] at hl
  · rcases rest with _ | ⟨b, r⟩
    · intro l hl
      rw [mapInner] at hl
      simp at hl
      exact hl ▸ h a (List.mem_cons_self a [])
    · intro l hl
      rw [mapInner] at hl
      rcases List.mem_cons.mp hl with rfl | hmem
      · exact h l (List.mem_cons_self l _)
      · exact mapInnerAux_no_pipe hf r b
          (h b (List.mem_cons_of_mem a (List.mem_cons_self b r)))
          (fun m hm => h m (List.mem_cons_of_mem a (List.mem_cons_of_mem b hm)))
          l hmem

theorem mapInner_ne_nil {f : List Char → List Char} {segs : List (List Char)}
    (h : segs ≠ []) : mapInner f segs ≠ [] := by
  rcases segs with _ | ⟨a, rest⟩
  · exact absurd rfl h
  · rcases rest with _ | ⟨b, r⟩ <;> simp [mapInner, mapInnerAux_ne_nil]

theorem applyButLast_mapInnerAux (f g : List Char → List Char) :
    ∀ (rest : List (List Char)) (cur : List Char),
      applyButLast f (mapInnerAux g cur rest) = mapInnerAux (fun x => f (g x)) cur rest := by
  intro rest
  induction rest with
  | nil => intro cur; rfl
  | cons nxt r ih =>
    intro cur
    rw [mapInnerAux, mapInnerAux, applyButLast]
    rcases haux : mapInnerAux g nxt r with _ | ⟨y, ys⟩
    · exact absurd haux (mapInnerAux_ne_nil g nxt r)
    · rw [mapInnerAux]
      have : mapInnerAux f y ys = applyButLast f (mapInnerAux g nxt r) := by
        rw [haux, applyButLast]
      rw [this, ih nxt]

theorem mapInner_eq_head_applyButLast (f : List Char → List Char) (a : List Char)
    (rest : List (List Char)) : mapInner f (a :: rest) = a :: applyButLast f rest := by
  rcases rest with _ | ⟨b, r⟩ <;> rfl

theorem mapInner_mapInner (f g : List Char → List Char) (segs : List (List Char)) :
    mapInner f (mapInner g segs) = mapInner (fun x => f (g x)) segs := by
  rcases segs with _ | ⟨a, rest⟩
  · rfl
  · rw [mapInner_eq_head_applyButLast, mapInner_eq_head_applyButLast,
      mapInner_eq_head_applyButLast]
    rcases rest with _ | ⟨b, r⟩
    · rfl
    · rw [show applyButLast g (b :: r) = mapInnerAux g b r from rfl,
        applyButLast_mapInnerAux]
      rfl

theorem escSeg_append (c : Char) (rep a b : List Char) :
    escSeg c rep (a ++ b) = escSeg c rep a ++ escSeg c rep b := by
  simp [escSeg]

/-- The three sequential single-character passes acting on one cell agree
with the simultaneous per-character escaping `escapeCellChar`: none of the
replacement texts contains a character that a later pass replaces. -/
theorem escSeg_escape_chain (seg : List Char) :
    escSeg '\x7d' "&rbrace;".data (escSeg '\x7b' "&lbrace;".data
      (escSeg ';' "&semi;".data seg)) = seg.flatMap escapeCellChar := by
  induction seg with
  | nil => rfl
  | cons x xs ih =>
    rw [escSeg_cons, escSeg_append, escSeg_append, List.flatMap_cons, ih]
    congr 1
    by_cases h1 : x = ';'
    · subst h1
      rw [if_pos rfl]
      decide
    · rw [if_neg h1]
      by_cases h2 : x = '\x7b'
      · subst h2
        have : escSeg '\x7b' "&lbrace;".data ['\x7b'] = "&lbrace;".data := by decide
        rw [this]
        have h3 : escSeg '\x7d' "&rbrace;".data "&lbrace;".data = "&lbrace;".data := by
          decide
        rw [h3]
        simp [escapeCellChar]
      · have e1 : escSeg '\x7b' "&lbrace;".data [x] = [x] := by
          simp [escSeg, h2]
        rw [e1]
        by_cases h3 : x = '\x7d'
        · subst h3
          have : escSeg '\x7d' "&rbrace;".data ['\x7d'] = "&rbrace;".data := by decide
          rw [this]
          simp [escapeCellChar]
        · have e2 : escSeg '\x7d' "&rbrace;".data [x] = [x] := by
            simp [escSeg, h3]
          rw [e2]
          simp [escapeCellChar, h1, h2, h3]

/-- The three regex passes of the source agree with the spec-side description
`escapeTableSpec` on every input. -/
theorem escapeTableChars_eq_spec (cs : List Char) :
    escapeTableChars cs = escapeTableSpec cs := by
  have hsemi : '|' ∉ "&semi;".data := by decide
  have hlb : '|' ∉ "&lbrace;".data := by decide
  have hfree0 : ∀ l ∈ splitOnPipe cs, '|' ∉ l := fun l hl => mem_splitOnPipe_no_pipe hl
  have hfree1 : ∀ l ∈ mapInner (escSeg ';' "&semi;".data) (splitOnPipe cs), '|' ∉ l :=
    mapInner_no_pipe (fun h => escSeg_no_pipe hsemi ';' h) hfree0
  have hfree2 : ∀ l ∈ mapInner (escSeg '\x7b' "&lbrace;".data)
      (mapInner (escSeg ';' "&semi;".data) (splitOnPipe cs)), '|' ∉ l :=
    mapInner_no_pipe (fun h => escSeg_no_pipe hlb '\x7b' h) hfree1
  rw [escapeTableChars, replacePass_spec ';' "&semi;".data cs,
    replacePass_spec '\x7b' "&lbrace;".data,
    splitOnPipe_joinPipes (mapInner_ne_nil (splitOnPipe_ne_nil cs)) hfree1,
    replacePass_spec '\x7d' "&rbrace;".data,
    splitOnPipe_joinPipes (mapInner_ne_nil (mapInner_ne_nil (splitOnPipe_ne_nil cs)))
      hfree2,
    mapInner_mapInner, mapInner_mapInner, escapeTableSpec]
  congr 1
  have hfun : (fun x => escSeg '\x7d' "&rbrace;".data
      (escSeg '\x7b' "&lbrace;".data (escSeg ';' "&semi;".data x))) =
      (fun seg => seg.flatMap escapeCellChar) :=
    funext (fun seg => escSeg_escape_chain seg)
  rw [hfun]

/-! ### Claim C2: table-cell escaping -/

/-- Claim C2: inside table cells — text delimited by pipe characters, not
spanning across a pipe, i.e. the segments strictly between two pipes of the
pipe-split — every `;`, `\x7b`, `\x7d` is replaced by its named character
reference, and identical characters outside cells are untouched
(`escapeTableChars` from the source equals `escapeTableSpec` written from the
spec); in particular the claimed table row rewrites as stated and the
non-table line is unchanged by the escaping. -/
theorem processMarkdown_table_escaping :
    (∀ cs : List Char, escapeTableChars cs = escapeTableSpec cs) ∧
    processMarkdown "| a;b | \x7bc\x7d |" =
      frontMatter ++ "| a&semi;b | &lbrace;c&rbrace; |" ∧
    processMarkdown "a;b \x7bc\x7d" = frontMatter ++ "a;b \x7bc\x7d" :=
  ⟨escapeTableChars_eq_spec, by decide, by decide⟩

/-! ### Claim C3: idempotence of the post-processor -/

/-- Counterexample to claim C3: `processMarkdown` is not idempotent even on
the empty string — the second application prepends the front-matter block a
second time. -/
theorem processMarkdown_idempotent_cex :
    processMarkdown (processMarkdown "") ≠ processMarkdown "" := by
  decide

theorem replacePass_length_le (c : Char) {rep : List Char} (hrep : rep ≠ []) :
    ∀ (cs : List Char) (seen : Bool), cs.length ≤ (replacePass c rep seen cs).length := by
  intro cs
  induction cs with
  | nil => intro seen; simp [replacePass]
  | cons x xs ih =>
    intro seen
    rw [replacePass]
    by_cases hx : x = '|'
    · rw [if_pos hx]
      simpa using ih true
    · rw [if_neg hx]
      by_cases hcond : seen = true ∧ x = c ∧ '|' ∈ xs
      · rw [if_pos hcond, List.length_append]
        have h1 : 1 ≤ rep.length := List.length_pos.mpr hrep
        have h2 := ih seen
        simp only [List.length_cons]
        omega
      · rw [if_neg hcond]
        simpa using ih seen

theorem escapeTableChars_length_le (cs : List Char) :
    cs.length ≤ (escapeTableChars cs).length := by
  rw [escapeTableChars]
  calc cs.length ≤ (replacePass ';' "&semi;".data false cs).length :=
        replacePass_length_le ';' (by decide) cs false
    _ ≤ (replacePass '\x7b' "&lbrace;".data false
          (replacePass ';' "&semi;".data false cs)).length :=
        replacePass_length_le '\x7b' (by decide) _ false
    _ ≤ _ := replacePass_length_le '\x7d' (by decide) _ false

/-- Claim C3 (amended): `processMarkdown` is idempotent for NO input at all:
a second application prepends the front-matter block a second time (and may
re-escape characters of already-inserted references), so the double
application always differs from the single one. -/
theorem processMarkdown_not_idempotent (s : String) :
    processMarkdown (processMarkdown s) ≠ processMarkdown s := by
  intro heq
  have hlen := congrArg (fun t : String => t.data.length) heq
  have hdata : ∀ t : String,
      (processMarkdown t).data = frontMatter.data ++ escapeTableChars t.data := fun t => rfl
  simp only [hdata, List.length_append] at hlen
  have h1 := escapeTableChars_length_le (processMarkdown s).data
  rw [hdata s, List.length_append] at h1
  have hfm : 0 < frontMatter.data.length := by decide
  omega

/-! ### Lemmas about line splitting -/

theorem splitLines_ne_nil (cs : List Char) : splitLines cs ≠ [] := by
  cases cs with
  | nil => simp [splitLines]
  | cons x xs =>
    rw [splitLines]
    by_cases hx : x = '\n'
    · simp [hx]
    · rw [if_neg hx]
      rcases splitLines xs with _ | ⟨l, ls⟩ <;> simp

theorem splitLines_no_nl : ∀ {cs : List Char}, '\n' ∉ cs → splitLines cs = [cs] := by
  intro cs
  induction cs with
  | nil => intro _; rfl
  | cons x xs ih =>
    intro h
    have hx : x ≠ '\n' := fun he => h (he ▸ List.mem_cons_self x xs)
    have hxs : '\n' ∉ xs := fun hm => h (List.mem_cons_of_mem x hm)
    rw [splitLines, if_neg hx, ih hxs]

theorem splitLines_append_line {l : List Char} (h : '\n' ∉ l) (rest : List Char) :
    splitLines (l ++ '\n' :: rest) = l :: splitLines rest := by
  induction l with
  | nil => simp [splitLines]
  | cons x xs ih =>
    have hx : x ≠ '\n' := fun he => h (he ▸ List.mem_cons_self x xs)
    have hxs : '\n' ∉ xs := fun hm => h (List.mem_cons_of_mem x hm)
    rw [List.cons_append, splitLines, if_neg hx, ih hxs]

theorem mem_splitLines_no_nl : ∀ {cs l : List Char}, l ∈ splitLines cs → '\n' ∉ l := by
  intro cs
  induction cs with
  | nil =>
    intro l hl
    simp [splitLines] at hl
    simp [hl]
  | cons x xs ih =>
    intro l hl
    rw [splitLines] at hl
    by_cases hx : x = '\n'
    · rw [if_pos hx] at hl
      rcases List.mem_cons.mp hl with rfl | h
      · simp
      · exact ih h
    · rw [if_neg hx] at hl
      rcases hsp : splitLines xs with _ | ⟨m, ms⟩
      · exact absurd hsp (splitLines_ne_nil xs)
      · rw [hsp] at hl
        rcases List.mem_cons.mp hl with rfl | h
        · intro hmem
          rcases List.mem_cons.mp hmem with he | hm
          · exact hx he.symm
          · exact ih (hsp ▸ List.mem_cons_self m ms) hm
        · exact ih (hsp ▸ List.mem_cons_of_mem m h)

theorem splitLines_joinLines :
    ∀ {ls : List (List Char)}, ls ≠ [] → (∀ l ∈ ls, '\n' ∉ l) →
      splitLines (joinLines ls) = ls := by
  intro ls
  induction ls with
  | nil => intro h; exact absurd rfl h
  | cons a rest ih =>
    intro _ hall
    rcases rest with _ | ⟨b, r⟩
    · rw [joinLines, splitLines_no_nl (hall a (List.mem_cons_self a []))]
    · rw [joinLines, splitLines_append_line (hall a (List.mem_cons_self a _))]
      rw [ih (by simp) (fun l hl => hall l (List.mem_cons_of_mem a hl))]

/-- Splitting a text made of newline-terminated lines followed by a rest. -/
theorem splitLines_terminated (ls : List (List Char)) (h : ∀ l ∈ ls, '\n' ∉ l)
    (rest : List Char) :
    splitLines (ls.flatMap (fun l => l ++ ['\n']) ++ rest) = ls ++ splitLines rest := by
  induction ls with
  | nil => simp
  | cons a t ih =>
    rw [List.flatMap_cons, List.append_assoc, List.append_assoc]
    rw [show (['\n'] : List Char) ++ (t.flatMap (fun l => l ++ ['\n']) ++ rest) =
      '\n' :: (t.flatMap (fun l => l ++ ['\n']) ++ rest) from rfl]
    rw [splitLines_append_line (h a (List.mem_cons_self a t))]
    rw [ih (fun l hl => h l (List.mem_cons_of_mem a hl))]
    rfl

/-! ### Claim C5: the front-matter block -/

/-- Counterexample to claim C5 as stated: processing the file `x` puts the
complete front-matter block on the first SIX lines (the closing delimiter is
line six), so the first five lines are not a complete front-matter block, and
the block carries FOUR keys, not five. -/
theorem processMarkdown_frontmatter_cex :
    ((splitLines (processMarkdown "x").data).take 5).map String.mk =
      ["---", "editLink: false", "prev: false", "next: false", "outline: false"] ∧
    ((splitLines (processMarkdown "x").data).take 5).map String.mk ≠
      fmLines.map String.mk ∧
    ((splitLines (processMarkdown "x").data).take 6).map String.mk =
      ["---", "editLink: false", "prev: false", "next: false", "outline: false", "---"] ∧
    (fmLines.filter isKeyValueLine).length = 4 := by
  refine ⟨by decide, by decide, by decide, by decide⟩

/-- Claim C5 (amended): for every input, post-processing puts the fixed
front-matter block — four keys, six lines including the two delimiters —
verbatim at the very top of the file: the block is a literal string prefix of
the output and occupies exactly the first six lines, regardless of the prior
file content. -/
theorem processMarkdown_frontmatter_prefix (s : String) :
    (splitLines (processMarkdown s).data).take 6 = fmLines ∧
    ∃ t, processMarkdown s = frontMatter ++ t := by
  constructor
  · have hfm : frontMatter.data = fmLines.flatMap (fun l => l ++ ['\n']) := by decide
    have hdata : (processMarkdown s).data =
        frontMatter.data ++ escapeTableChars s.data := rfl
    rw [hdata, hfm, splitLines_terminated fmLines (by decide)]
    have hlen : fmLines.length = 6 := by decide
    rw [← hlen, List.take_left]
  · exact ⟨String.mk (escapeTableChars s.data), rfl⟩

/-! ### Claim C6: the combined .NET index -/

/-- Claim C6: the combined index is the concatenation of the per-project
Markdown in configured order (`String.join docs` keeps the given order); every
level-1 header line of the merged text is blanked, and exactly one new
top-level header is inserted at the very top — it is the only level-1 header
line of the result. -/
theorem combineIndex_single_top_header (docs : List String) :
    splitLines (combineIndexMarkdown docs).data =
      "# .NET API Reference".data ::
        (splitLines (String.join docs).data).map
          (fun l => if isH1Line l then [] else l) ∧
    (splitLines (combineIndexMarkdown docs).data).filter isH1Line =
      ["# .NET API Reference".data] := by
  have hdata : (combineIndexMarkdown docs).data =
      "# .NET API Reference".data ++ '\n' :: stripH1Lines (String.join docs).data := rfl
  have hmask : ∀ l ∈ (splitLines (String.join docs).data).map
      (fun l => if isH1Line l then [] else l), '\n' ∉ l := by
    intro l hl
    rw [List.mem_map] at hl
    obtain ⟨m, hm, rfl⟩ := hl
    by_cases h : isH1Line m
    · simp [h]
    · simp only [if_neg h]
      exact mem_splitLines_no_nl hm
  have hne : (splitLines (String.join docs).data).map
      (fun l => if isH1Line l then [] else l) ≠ [] := by
    intro hnil
    rw [List.map_eq_nil_iff] at hnil
    exact splitLines_ne_nil _ hnil
  have hmain : splitLines (combineIndexMarkdown docs).data =
      "# .NET API Reference".data ::
        (splitLines (String.join docs).data).map
          (fun l => if isH1Line l then [] else l) := by
    rw [hdata, splitLines_append_line (by decide), stripH1Lines,
      splitLines_joinLines hne hmask]
  refine ⟨hmain, ?_⟩
  rw [hmain, List.filter_cons, if_pos (by decide)]
  have hnil : ((splitLines (String.join docs).data).map
      (fun l => if isH1Line l then [] else l)).filter isH1Line = [] := by
    rw [List.filter_eq_nil_iff]
    intro l hl
    rw [List.mem_map] at hl
    obtain ⟨m, hm, rfl⟩ := hl
    by_cases h : isH1Line m
    · rw [if_pos h]
      decide
    · rw [if_neg h]
      exact h
  rw [hnil]

end NodeApiDocs
